import Mathlib

/-!
Verification of the core logic of `scripts/merge-cjk-font.py`.

The script builds a target codepoint set, resolves a font priority order,
validates font compatibility, and partitions the target set across fonts
by first-match-wins.  The pure decision logic of those steps is embedded
below: Python `set` becomes `Finset`, `dict` iteration order is modelled
explicitly where it matters, `str` stays `String`, truthiness of optional
strings is modelled by `pyTruthy`, and `raise SystemExit` becomes
`Except.error`.
-/

namespace MergeCJK

/-- Python `ASCII_BASIC = set(range(0x20, 0x7F))`. -/
def ASCII_BASIC : Finset ℕ := Finset.Ico 0x20 0x7F

/-- Python `LATIN_1_SUP = set(range(0x00A0, 0x0100))`. -/
def LATIN_1_SUP : Finset ℕ := Finset.Ico 0xA0 0x100

/-- Python `CJK_PUNCT = (0x3000, 0x303F)`. -/
def CJK_PUNCT : ℕ × ℕ := (0x3000, 0x303F)

/-- Python `HIRAGANA = (0x3040, 0x309F)`. -/
def HIRAGANA : ℕ × ℕ := (0x3040, 0x309F)

/-- Python `KATAKANA = (0x30A0, 0x30FF)`. -/
def KATAKANA : ℕ × ℕ := (0x30A0, 0x30FF)

/-- Python `HALFWIDTH = (0xFF00, 0xFFEF)`. -/
def HALFWIDTH : ℕ × ℕ := (0xFF00, 0xFFEF)

/-- Python `CJK_UNIFIED = (0x4E00, 0x9FFF)`. -/
def CJK_UNIFIED : ℕ × ℕ := (0x4E00, 0x9FFF)

/-- Python `CJK_EXT_A = (0x3400, 0x4DBF)`. -/
def CJK_EXT_A : ℕ × ℕ := (0x3400, 0x4DBF)

/-- Python `CJK_COMPAT = (0xF900, 0xFAFF)`. -/
def CJK_COMPAT : ℕ × ℕ := (0xF900, 0xFAFF)

/-- Python `add_range(s, lo, hi)`, i.e. `s.update(range(lo, hi + 1))`:
the inclusive range `[lo, hi]` is added to the set. -/
def add_range (s : Finset ℕ) (r : ℕ × ℕ) : Finset ℕ :=
  s ∪ Finset.Icc r.1 r.2

/-- Python `read_corpus_chars`: the union of the characters of the decoded
corpus texts.  Each text is modelled as its decoded character list (the
file I/O and UTF-8 error-ignoring decode are outside the embedding); the
final comprehension `{c for c in chars if c and len(c) == 1}` keeps every
element, since iterating a Python string yields non-empty length-1
strings. -/
def read_corpus_chars (texts : List (List Char)) : Finset Char :=
  texts.foldl (fun s t => s ∪ t.toFinset) ∅

/-- Python `chars_to_codepoints`: `{ord(c) for c in chars}`. -/
def chars_to_codepoints (chars : Finset Char) : Finset ℕ :=
  chars.image Char.toNat

/-- The argparse fields that `build_target` reads.  `corpus` holds the
decoded corpus texts; an absent `--corpus` and an empty list are both
falsy in Python and are both modelled by `[]`. -/
structure BuildArgs where
  corpus : List (List Char)
  add_latin1 : Bool
  add_cjk_punct : Bool
  add_jp_syllabaries : Bool
  add_halfwidth : Bool
  add_han_basic : Bool

/-- Conditional set update: Python `if p: target.update(u)` acting on the
current value `s` of `target`.  The sequential `add_range` pairs of the
jp-syllabaries and han-basic branches appear as the (equal) union of their
inclusive ranges. -/
def addIf (p : Bool) (s u : Finset ℕ) : Finset ℕ :=
  if p then s ∪ u else s

/-- Python `build_target(args)`: start from `ASCII_BASIC` and `update` the
set once per enabled source, in the order the script does. -/
def build_target (a : BuildArgs) : Finset ℕ :=
  let t1 := addIf (decide (a.corpus ≠ [])) ASCII_BASIC
      (chars_to_codepoints (read_corpus_chars a.corpus))
  let t2 := addIf a.add_latin1 t1 LATIN_1_SUP
  let t3 := addIf a.add_cjk_punct t2 (Finset.Icc CJK_PUNCT.1 CJK_PUNCT.2)
  let t4 := addIf a.add_jp_syllabaries t3
      (Finset.Icc HIRAGANA.1 HIRAGANA.2 ∪ Finset.Icc KATAKANA.1 KATAKANA.2)
  let t5 := addIf a.add_halfwidth t4 (Finset.Icc HALFWIDTH.1 HALFWIDTH.2)
  addIf a.add_han_basic t5
    (Finset.Icc CJK_UNIFIED.1 CJK_UNIFIED.2
      ∪ Finset.Icc CJK_EXT_A.1 CJK_EXT_A.2
      ∪ Finset.Icc CJK_COMPAT.1 CJK_COMPAT.2)

lemma mem_addIf {p : Bool} {s u : Finset ℕ} {x : ℕ} :
    x ∈ addIf p s u ↔ x ∈ s ∨ (p = true ∧ x ∈ u) := by
  cases p <;> simp [addIf]

lemma subset_addIf {p : Bool} {s u : Finset ℕ} : s ⊆ addIf p s u := by
  cases p <;> simp [addIf]

lemma ascii_subset_build_target (a : BuildArgs) :
    ASCII_BASIC ⊆ build_target a := by
  simp only [build_target]
  exact Finset.Subset.trans (Finset.Subset.trans (Finset.Subset.trans
    (Finset.Subset.trans (Finset.Subset.trans subset_addIf subset_addIf)
      subset_addIf) subset_addIf) subset_addIf) subset_addIf

/-- Membership in `build_target`, unfolded source by source. -/
lemma mem_build_target (a : BuildArgs) (x : ℕ) :
    x ∈ build_target a ↔
      x ∈ ASCII_BASIC
      ∨ (a.corpus ≠ [] ∧ x ∈ chars_to_codepoints (read_corpus_chars a.corpus))
      ∨ (a.add_latin1 = true ∧ x ∈ LATIN_1_SUP)
      ∨ (a.add_cjk_punct = true ∧ x ∈ Finset.Icc CJK_PUNCT.1 CJK_PUNCT.2)
      ∨ (a.add_jp_syllabaries = true ∧
          (x ∈ Finset.Icc HIRAGANA.1 HIRAGANA.2
            ∨ x ∈ Finset.Icc KATAKANA.1 KATAKANA.2))
      ∨ (a.add_halfwidth = true ∧ x ∈ Finset.Icc HALFWIDTH.1 HALFWIDTH.2)
      ∨ (a.add_han_basic = true ∧
          (x ∈ Finset.Icc CJK_UNIFIED.1 CJK_UNIFIED.2
            ∨ x ∈ Finset.Icc CJK_EXT_A.1 CJK_EXT_A.2
            ∨ x ∈ Finset.Icc CJK_COMPAT.1 CJK_COMPAT.2)) := by
  simp only [build_target, mem_addIf, Finset.mem_union, decide_eq_true_eq,
    or_assoc]

/-- C6: with no corpus texts and no block flags, `build_target` returns
exactly the 95 printable ASCII codepoints 0x20 through 0x7E, and for every
combination of corpus texts and flags the result contains that range. -/
theorem build_target_ascii_spec :
    (build_target ⟨[], false, false, false, false, false⟩
        = Finset.Icc 0x20 0x7E
      ∧ (Finset.Icc (0x20 : ℕ) 0x7E).card = 95)
    ∧ ∀ a : BuildArgs, Finset.Icc (0x20 : ℕ) 0x7E ⊆ build_target a := by
  have hset : (Finset.Icc (0x20 : ℕ) 0x7E) = ASCII_BASIC := by
    ext x
    simp only [ASCII_BASIC, Finset.mem_Icc, Finset.mem_Ico]
    omega
  refine ⟨⟨?_, ?_⟩, ?_⟩
  · simp only [build_target, addIf]
    rw [hset]
    simp
  · rw [Nat.card_Icc]
  · intro a
    rw [hset]
    exact ascii_subset_build_target a

/-- C6 witness: a concrete ASCII codepoint is in a concrete target set. -/
theorem build_target_ascii_spec_witness :
    (0x41 : ℕ) ∈ build_target ⟨[], true, false, false, false, false⟩ :=
  build_target_ascii_spec.2 _ (by decide)

/-- C7: enabling `add-jp-syllabaries` adds exactly the inclusive range
0x3040 to 0x30FF to the target set and nothing else; that range has 192
codepoints and is disjoint from the printable ASCII range. -/
theorem add_jp_syllabaries_spec :
    (∀ a : BuildArgs,
      build_target { a with add_jp_syllabaries := true }
        = build_target { a with add_jp_syllabaries := false }
            ∪ Finset.Icc 0x3040 0x30FF)
    ∧ (Finset.Icc (0x3040 : ℕ) 0x30FF).card = 192
    ∧ Disjoint (Finset.Icc (0x3040 : ℕ) 0x30FF) ASCII_BASIC := by
  refine ⟨?_, ?_, ?_⟩
  · intro a
    obtain ⟨cor, l1, pu, jp, hw, han⟩ := a
    ext x
    have hjk : (x ∈ Finset.Icc (0x3040 : ℕ) 0x309F
          ∨ x ∈ Finset.Icc (0x30A0 : ℕ) 0x30FF)
        ↔ x ∈ Finset.Icc (0x3040 : ℕ) 0x30FF := by
      simp only [Finset.mem_Icc]
      omega
    simp only [Finset.mem_union, mem_build_target, HIRAGANA, KATAKANA]
    simp only [true_and, false_and, false_or, or_false, Bool.false_eq_true,
      eq_self_iff_true]
    simp only [hjk]
    itauto
  · rw [Nat.card_Icc]
  · rw [Finset.disjoint_left]
    intro x hx hy
    simp only [Finset.mem_Icc, ASCII_BASIC, Finset.mem_Ico] at hx hy
    omega

/-- C7 witness: the union identity at a concrete argument record. -/
theorem add_jp_syllabaries_spec_witness :
    build_target ⟨[], false, false, true, false, false⟩
      = build_target ⟨[], false, false, false, false, false⟩
          ∪ Finset.Icc 0x3040 0x30FF :=
  add_jp_syllabaries_spec.1 ⟨[], false, false, false, false, false⟩

/-! The ownership partition loop of `main`:

    for u in sorted(target):
        owner = None
        for tag in order:
            if u in support[tag]:
                owner = tag
                break
        if owner:
            assigned[owner].add(u)
        else:
            unassigned += 1
-/

/-- The inner scan: the first tag of `order` whose coverage contains `u`,
if any (`owner` after the `for tag in order` loop). -/
def findOwner (order : List String) (support : String → Finset ℕ)
    (u : ℕ) : Option String :=
  order.find? (fun tag => decide (u ∈ support tag))

/-- Python truthiness of the `owner` variable: `None` and the empty string
are falsy, every other string is truthy. -/
def pyTruthy : Option String → Bool
  | none => false
  | some s => decide (s ≠ "")

/-- The set the partition loop leaves in `assigned[tag]`: target
codepoints whose truthy owner is `tag`. -/
def assigned (target : Finset ℕ) (order : List String)
    (support : String → Finset ℕ) (tag : String) : Finset ℕ :=
  target.filter (fun u =>
    pyTruthy (findOwner order support u) = true
      ∧ findOwner order support u = some tag)

/-- The final value of the `unassigned` counter. -/
def unassignedCount (target : Finset ℕ) (order : List String)
    (support : String → Finset ℕ) : ℕ :=
  (target.filter (fun u => pyTruthy (findOwner order support u) = false)).card

/-- Target codepoints covered by no font of the order (the spec's
unassigned codepoints). -/
def uncovered (target : Finset ℕ) (order : List String)
    (support : String → Finset ℕ) : Finset ℕ :=
  target.filter (fun u => ∀ tag ∈ order, u ∉ support tag)

/-- Union of all per-font assignments. -/
def assignedUnion (target : Finset ℕ) (order : List String)
    (support : String → Finset ℕ) : Finset ℕ :=
  order.foldr (fun tag acc => assigned target order support tag ∪ acc) ∅

lemma findOwner_support {order : List String} {support : String → Finset ℕ}
    {u : ℕ} {tag : String} (h : findOwner order support u = some tag) :
    u ∈ support tag := by
  have := List.find?_some h
  simpa using this

lemma findOwner_mem_order {order : List String}
    {support : String → Finset ℕ} {u : ℕ} {tag : String}
    (h : findOwner order support u = some tag) : tag ∈ order :=
  List.mem_of_find?_eq_some h

lemma findOwner_eq_none {order : List String} {support : String → Finset ℕ}
    {u : ℕ} :
    findOwner order support u = none ↔ ∀ tag ∈ order, u ∉ support tag := by
  simp [findOwner, List.find?_eq_none]

lemma findOwner_isSome {order : List String} {support : String → Finset ℕ}
    {u : ℕ} {tag : String} (h1 : tag ∈ order) (h2 : u ∈ support tag) :
    ∃ t, findOwner order support u = some t := by
  have : (order.find? (fun tag => decide (u ∈ support tag))).isSome := by
    rw [List.find?_isSome]
    exact ⟨tag, h1, by simpa using h2⟩
  exact Option.isSome_iff_exists.mp this

/-- The element returned by `find?` occurs no later than any other
element satisfying the predicate. -/
lemma find?_indexOf_le {p : String → Bool} :
    ∀ {l : List String} {a b : String}, p a = true → a ∈ l →
      l.find? p = some b → l.indexOf b ≤ l.indexOf a := by
  intro l
  induction l with
  | nil => intro a b _ ha _; cases ha
  | cons h t ih =>
    intro a b hpa ha hfind
    by_cases hph : p h = true
    · rw [List.find?_cons_of_pos _ hph] at hfind
      cases hfind
      simp [List.indexOf_cons_self]
    · rw [List.find?_cons_of_neg _ (by simpa using hph)] at hfind
      have hah : h ≠ a := by
        intro e
        exact hph (e ▸ hpa)
      have hbh : h ≠ b := by
        intro e
        exact hph (e ▸ List.find?_some hfind)
      have hat : a ∈ t := by
        rcases List.mem_cons.mp ha with e | m
        · exact absurd e.symm hah
        · exact m
      rw [List.indexOf_cons_ne _ hah, List.indexOf_cons_ne _ hbh]
      exact Nat.succ_le_succ (ih hpa hat hfind)

lemma mem_assigned {target : Finset ℕ} {order : List String}
    {support : String → Finset ℕ} {tag : String} {u : ℕ} :
    u ∈ assigned target order support tag
      ↔ u ∈ target ∧ findOwner order support u = some tag ∧ tag ≠ "" := by
  constructor
  · intro h
    rw [assigned, Finset.mem_filter] at h
    obtain ⟨ht, htr, heq⟩ := h
    refine ⟨ht, heq, ?_⟩
    rw [heq] at htr
    simpa [pyTruthy] using htr
  · rintro ⟨ht, heq, hne⟩
    rw [assigned, Finset.mem_filter]
    exact ⟨ht, by rw [heq]; simpa [pyTruthy] using hne, heq⟩

lemma mem_foldr_assigned {target : Finset ℕ} {order : List String}
    {support : String → Finset ℕ} {u : ℕ} (l : List String) :
    u ∈ l.foldr (fun tag acc => assigned target order support tag ∪ acc) ∅
      ↔ ∃ tag ∈ l, u ∈ assigned target order support tag := by
  induction l with
  | nil => simp
  | cons h t ih =>
    simp only [List.foldr_cons, Finset.mem_union, List.mem_cons, ih]
    constructor
    · rintro (hm | ⟨tag, htag, hm⟩)
      · exact ⟨h, Or.inl rfl, hm⟩
      · exact ⟨tag, Or.inr htag, hm⟩
    · rintro ⟨tag, rfl | htag, hm⟩
      · exact Or.inl hm
      · exact Or.inr ⟨tag, htag, hm⟩

lemma mem_assignedUnion {target : Finset ℕ} {order : List String}
    {support : String → Finset ℕ} {u : ℕ} :
    u ∈ assignedUnion target order support
      ↔ ∃ tag ∈ order, u ∈ assigned target order support tag := by
  rw [assignedUnion]
  exact mem_foldr_assigned order

/-- C1: the partition loop yields pairwise-disjoint per-font assignments
whose union with the uncovered codepoints is exactly the target set; every
target codepoint is either uncovered or in exactly one assignment, and the
`unassigned` counter counts exactly the uncovered codepoints.  Tags of a
resolved order are keys of the font map and hence non-empty. -/
theorem partition_invariant (target : Finset ℕ) (order : List String)
    (support : String → Finset ℕ) (hnz : ∀ t ∈ order, t ≠ "") :
    (∀ t1 t2 : String, t1 ≠ t2 →
      Disjoint (assigned target order support t1)
        (assigned target order support t2))
    ∧ assignedUnion target order support ∪ uncovered target order support
        = target
    ∧ (∀ u ∈ target,
        (u ∈ uncovered target order support
          ∧ ∀ t : String, u ∉ assigned target order support t)
        ∨ (u ∉ uncovered target order support
          ∧ ∃ t ∈ order, u ∈ assigned target order support t
              ∧ ∀ t' : String, u ∈ assigned target order support t' → t' = t))
    ∧ unassignedCount target order support
        = (uncovered target order support).card := by
  have huncov : ∀ u : ℕ, u ∈ uncovered target order support
      ↔ u ∈ target ∧ findOwner order support u = none := by
    intro u
    rw [uncovered, Finset.mem_filter, findOwner_eq_none]
  refine ⟨?_, ?_, ?_, ?_⟩
  · intro t1 t2 hne
    rw [Finset.disjoint_left]
    intro u h1 h2
    rw [mem_assigned] at h1 h2
    exact hne (Option.some.inj (h1.2.1.symm.trans h2.2.1))
  · ext u
    rw [Finset.mem_union, mem_assignedUnion, huncov]
    constructor
    · rintro (⟨tag, _, hm⟩ | ⟨ht, _⟩)
      · exact (mem_assigned.mp hm).1
      · exact ht
    · intro hu
      cases hfind : findOwner order support u with
      | none => exact Or.inr ⟨hu, rfl⟩
      | some t =>
        have ht : t ∈ order := findOwner_mem_order hfind
        exact Or.inl ⟨t, ht, mem_assigned.mpr ⟨hu, hfind, hnz t ht⟩⟩
  · intro u hu
    cases hfind : findOwner order support u with
    | none =>
      refine Or.inl ⟨(huncov u).mpr ⟨hu, hfind⟩, ?_⟩
      intro t hmem
      rw [mem_assigned] at hmem
      exact Option.noConfusion (hfind.symm.trans hmem.2.1)
    | some t =>
      have ht : t ∈ order := findOwner_mem_order hfind
      refine Or.inr ⟨?_, t, ht, mem_assigned.mpr ⟨hu, hfind, hnz t ht⟩, ?_⟩
      · intro hun
        exact ((huncov u).mp hun).2.symm.trans hfind |> Option.noConfusion
      · intro t' hmem
        exact Option.some.inj ((mem_assigned.mp hmem).2.1.symm.trans hfind)
  · rw [unassignedCount]
    congr 1
    refine Finset.filter_congr ?_
    intro u hu
    cases hfind : findOwner order support u with
    | none =>
      exact iff_of_true rfl (findOwner_eq_none.mp hfind)
    | some t =>
      have ht : t ∈ order := findOwner_mem_order hfind
      have hsupp : u ∈ support t := findOwner_support hfind
      simp only [hfind, pyTruthy, decide_eq_false_iff_not, not_not,
        Decidable.not_not]
      constructor
      · intro he
        exact absurd he (hnz t ht)
      · intro hall
        exact absurd hsupp (hall t ht)

/-- Concrete partition instance: fonts a and b over the end-to-end example
target of the spec. -/
def exTarget : Finset ℕ := {0x41, 0x42, 0x43, 0x44}

/-- Concrete priority order for the example. -/
def exOrder : List String := ["a", "b"]

/-- Concrete coverage sets for the example. -/
def exSupport : String → Finset ℕ := fun t =>
  if t = "a" then {0x41, 0x42} else if t = "b" then {0x42, 0x43} else ∅

/-- C1 witness: disjointness of the two assignments in the example. -/
theorem partition_invariant_witness :
    Disjoint (assigned exTarget exOrder exSupport ("a"))
      (assigned exTarget exOrder exSupport ("b")) :=
  (partition_invariant exTarget exOrder exSupport (by decide)).1 ("a") ("b")
    (by decide)

/-- C2: when fonts t1 and t2 are the order's only fonts covering u and t1
comes first, u is assigned to t1; and a codepoint is only ever assigned to
a font whose coverage contains it.  Coverage is a set, so the statement
does not depend on any iteration order of it. -/
theorem first_match_wins (target : Finset ℕ) (order : List String)
    (support : String → Finset ℕ) (u : ℕ) (t1 t2 : String)
    (hu : u ∈ target) (h1 : t1 ∈ order)
    (hidx : order.indexOf t1 < order.indexOf t2)
    (hc1 : u ∈ support t1) (hc2 : u ∈ support t2)
    (honly : ∀ t ∈ order, u ∈ support t → t = t1 ∨ t = t2)
    (hnz : t1 ≠ "") :
    u ∈ assigned target order support t1
    ∧ ∀ (target' : Finset ℕ) (order' : List String)
        (support' : String → Finset ℕ) (v : ℕ) (t : String),
        v ∈ assigned target' order' support' t → v ∈ support' t := by
  constructor
  · obtain ⟨t, hfind⟩ := findOwner_isSome h1 hc1
    have ht : t ∈ order := findOwner_mem_order hfind
    have hts : u ∈ support t := findOwner_support hfind
    rcases honly t ht hts with rfl | rfl
    · exact mem_assigned.mpr ⟨hu, hfind, hnz⟩
    · exfalso
      have hle : order.indexOf t ≤ order.indexOf t1 :=
        find?_indexOf_le (by simpa using hc1) h1 hfind
      omega
  · intro target' order' support' v t hmem
    exact findOwner_support (mem_assigned.mp hmem).2.1

/-- C2 witness: codepoint 0x42 is covered by both example fonts and goes
to the earlier font a. -/
theorem first_match_wins_witness :
    (0x42 : ℕ) ∈ assigned exTarget exOrder exSupport ("a") :=
  (first_match_wins exTarget exOrder exSupport 0x42 ("a") ("b") (by decide)
    (by decide) (by decide) (by decide) (by decide) (by decide)
    (by decide)).1

/-! Priority Order Resolver: `expand_prefer_order(tokens, latin_tags)`. -/

/-- Deduplication pass of `expand_prefer_order` relative to an already
`seen` set, modelling

    seen = set()
    out = []
    for t in expanded:
        if t not in seen:
            seen.add(t)
            out.append(t)
-/
def dedupFirstAux (seen : List String) : List String → List String
  | [] => []
  | t :: ts =>
    if t ∈ seen then dedupFirstAux seen ts
    else t :: dedupFirstAux (t :: seen) ts

/-- First-occurrence deduplication, starting from an empty `seen` set. -/
def dedupFirst (l : List String) : List String := dedupFirstAux [] l

/-- Python `t.strip()`: drop leading and trailing whitespace. -/
def pyStrip (s : String) : String :=
  String.mk
    (((s.data.dropWhile Char.isWhitespace).reverse.dropWhile
        Char.isWhitespace).reverse)

/-- Expansion pass of `expand_prefer_order`: trim each token, drop empty
tokens, expand the literal token "latin" to `latin_tags`, pass other
tokens through. -/
def expandTokens (latin_tags : List String) : List String → List String
  | [] => []
  | t :: ts =>
    if pyStrip t = "" then expandTokens latin_tags ts
    else if pyStrip t = "latin" then latin_tags ++ expandTokens latin_tags ts
    else pyStrip t :: expandTokens latin_tags ts

/-- Python `expand_prefer_order(tokens, latin_tags)`: expansion followed
by first-occurrence deduplication. -/
def expand_prefer_order (tokens latin_tags : List String) : List String :=
  dedupFirst (expandTokens latin_tags tokens)

lemma mem_dedupFirstAux {x : String} :
    ∀ {seen l : List String},
      x ∈ dedupFirstAux seen l ↔ x ∈ l ∧ x ∉ seen := by
  intro seen l
  induction l generalizing seen with
  | nil => simp [dedupFirstAux]
  | cons t ts ih =>
    rw [dedupFirstAux]
    split_ifs with hseen
    · rw [ih]
      constructor
      · rintro ⟨hm, hs⟩
        exact ⟨List.mem_cons_of_mem t hm, hs⟩
      · rintro ⟨hm, hs⟩
        rcases List.mem_cons.mp hm with rfl | m
        · exact absurd hseen hs
        · exact ⟨m, hs⟩
    · rw [List.mem_cons, ih]
      constructor
      · rintro (rfl | ⟨hm, hs⟩)
        · exact ⟨List.mem_cons_self _ _, hseen⟩
        · refine ⟨List.mem_cons_of_mem t hm, ?_⟩
          intro hx
          exact hs (List.mem_cons_of_mem t hx)
      · rintro ⟨hm, hs⟩
        rcases List.mem_cons.mp hm with rfl | m
        · exact Or.inl rfl
        · by_cases hxt : x = t
          · exact Or.inl hxt
          · refine Or.inr ⟨m, ?_⟩
            intro hx
            rcases List.mem_cons.mp hx with e | e
            · exact hxt e
            · exact hs e

lemma nodup_dedupFirstAux :
    ∀ {seen l : List String}, (dedupFirstAux seen l).Nodup := by
  intro seen l
  induction l generalizing seen with
  | nil => simp [dedupFirstAux]
  | cons t ts ih =>
    rw [dedupFirstAux]
    split_ifs with hseen
    · exact ih
    · refine List.Nodup.cons ?_ ih
      intro hmem
      exact ((mem_dedupFirstAux.mp hmem).2) (List.mem_cons_self t _)

lemma mem_dedupFirst {x : String} {l : List String} :
    x ∈ dedupFirst l ↔ x ∈ l := by
  rw [dedupFirst, mem_dedupFirstAux]
  simp

lemma mem_expandTokens {latin_tags : List String} {x : String} :
    ∀ {tokens : List String},
      x ∈ expandTokens latin_tags tokens
        ↔ (∃ tok ∈ tokens, pyStrip tok = "latin" ∧ x ∈ latin_tags)
          ∨ (∃ tok ∈ tokens, pyStrip tok = x ∧ x ≠ "" ∧ x ≠ "latin") := by
  intro tokens
  induction tokens with
  | nil => simp [expandTokens]
  | cons t ts ih =>
    rw [expandTokens]
    split_ifs with hemp hlat
    · rw [ih]
      simp only [List.mem_cons]
      constructor
      · rintro (⟨tok, hm, h⟩ | ⟨tok, hm, h⟩)
        · exact Or.inl ⟨tok, Or.inr hm, h⟩
        · exact Or.inr ⟨tok, Or.inr hm, h⟩
      · rintro (⟨tok, rfl | hm, h⟩ | ⟨tok, rfl | hm, h⟩)
        · rw [hemp] at h
          exact absurd h.1 (by decide)
        · exact Or.inl ⟨tok, hm, h⟩
        · rw [hemp] at h
          exact absurd h.1.symm h.2.1
        · exact Or.inr ⟨tok, hm, h⟩
    · rw [List.mem_append, ih]
      simp only [List.mem_cons]
      constructor
      · rintro (hm | ⟨tok, hm, h⟩ | ⟨tok, hm, h⟩)
        · exact Or.inl ⟨t, Or.inl rfl, hlat, hm⟩
        · exact Or.inl ⟨tok, Or.inr hm, h⟩
        · exact Or.inr ⟨tok, Or.inr hm, h⟩
      · rintro (⟨tok, rfl | hm, h⟩ | ⟨tok, rfl | hm, h⟩)
        · exact Or.inl h.2
        · exact Or.inr (Or.inl ⟨tok, hm, h⟩)
        · rw [hlat] at h
          exact absurd h.1.symm h.2.2
        · exact Or.inr (Or.inr ⟨tok, hm, h⟩)
    · rw [List.mem_cons, ih]
      simp only [List.mem_cons]
      constructor
      · rintro (rfl | ⟨tok, hm, h⟩ | ⟨tok, hm, h⟩)
        · exact Or.inr ⟨t, Or.inl rfl, rfl, hemp, hlat⟩
        · exact Or.inl ⟨tok, Or.inr hm, h⟩
        · exact Or.inr ⟨tok, Or.inr hm, h⟩
      · rintro (⟨tok, rfl | hm, h⟩ | ⟨tok, rfl | hm, h⟩)
        · exact absurd h.1 hlat
        · exact Or.inr (Or.inl ⟨tok, hm, h⟩)
        · exact Or.inl h.1.symm
        · exact Or.inr (Or.inr ⟨tok, hm, h⟩)

/-- C3: the resolver trims tokens, drops empty ones, expands the literal
token "latin" to the latin tags, passes other tokens through, and
deduplicates keeping first occurrences; on the spec's example it returns
the latin tags followed by "zh-tw". -/
theorem expand_prefer_order_spec :
    expand_prefer_order ["latin", "zh-tw", "latin"] ["latin0", "latin1"]
        = ["latin0", "latin1", "zh-tw"]
    ∧ (∀ tokens latin_tags : List String,
        (expand_prefer_order tokens latin_tags).Nodup)
    ∧ (∀ (tokens latin_tags : List String) (x : String),
        x ∈ expand_prefer_order tokens latin_tags
          ↔ (∃ tok ∈ tokens, pyStrip tok = "latin" ∧ x ∈ latin_tags)
            ∨ (∃ tok ∈ tokens, pyStrip tok = x ∧ x ≠ "" ∧ x ≠ "latin")) := by
  refine ⟨by decide, ?_, ?_⟩
  · intro tokens latin_tags
    exact nodup_dedupFirstAux
  · intro tokens latin_tags x
    rw [expand_prefer_order, mem_dedupFirst, mem_expandTokens]

/-! Font Compatibility Validator: `validate_fonts(order, font_map)`.  The
per-font metadata the function reads from the binary (`head.unitsPerEm`,
presence of the `glyf`, `CFF `/`CFF2` and `fvar` tables) is snapshotted in
a descriptor record. -/

/-- Metadata `validate_fonts` reads from one font: `f["head"].unitsPerEm`,
`"glyf" in f`, `("CFF " in f) or ("CFF2" in f)`, and `"fvar" in f`. -/
structure FontDescriptor where
  unitsPerEm : ℕ
  hasGlyf : Bool
  hasCFF : Bool
  hasFvar : Bool
deriving DecidableEq, Repr

/-- Outline classification of one font, matching the if/elif chain. -/
def outlineKind (d : FontDescriptor) : String :=
  if d.hasGlyf && d.hasCFF then ("mixed-in-one")
  else if d.hasGlyf then ("glyf")
  else if d.hasCFF then ("cff")
  else ("unknown")

/-- The `upems` dict at the end of the loop, as its (key, value) items in
insertion order: Python dicts keep the first insertion position of each
key, and re-inserting a tag stores the same value, so the items are the
first occurrences of the order's tags paired with their units-per-em. -/
def upemsItems (order : List String) (fm : String → FontDescriptor) :
    List (String × ℕ) :=
  (dedupFirst order).map (fun t => (t, (fm t).unitsPerEm))

/-- The `outline_kinds` set, as the list of classifications observed over
the order (only membership in it is ever queried). -/
def outlineKinds (order : List String) (fm : String → FontDescriptor) :
    List String :=
  order.map (fun t => outlineKind (fm t))

/-- Outcome of `validate_fonts`: the two `SystemExit` failures, or success
with the variable-font warning flag (`any(var_flags.values())`). -/
inductive VResult where
  | upemMismatch (items : List (String × ℕ))
  | outlineMismatch
  | ok (warnVariable : Bool)
deriving DecidableEq, Repr

/-- The units-per-em mismatch message:
`", ".join([f"{t}={u}" for t, u in upems.items()])` appended to the fixed
text. -/
def renderUpemMsg (items : List (String × ℕ)) : String :=
  "unitsPerEm mismatch across inputs (must match for merge). Found: "
    ++ String.intercalate ", "
        (items.map (fun p => p.1 ++ "=" ++ toString p.2))

/-- Python `validate_fonts(order, font_map)`: fail on more than one
distinct units-per-em value (`len(set(upems.values())) > 1`), then on
mixed glyf and cff outline kinds, else succeed, warning if any input has
an `fvar` table. -/
def validate_fonts (order : List String) (fm : String → FontDescriptor) :
    VResult :=
  let upems := upemsItems order fm
  if 1 < (upems.map Prod.snd).dedup.length then
    VResult.upemMismatch upems
  else if ("glyf") ∈ outlineKinds order fm ∧ "cff" ∈ outlineKinds order fm then
    VResult.outlineMismatch
  else
    VResult.ok (order.any (fun t => (fm t).hasFvar))

/-- Discriminator for the units-per-em failure. -/
def isUpemFail : VResult → Bool
  | VResult.upemMismatch _ => true
  | _ => false

/-- Discriminator for the outline-format failure. -/
def isOutlineFail : VResult → Bool
  | VResult.outlineMismatch => true
  | _ => false

/-- Discriminator for any validation failure. -/
def isValidateFail : VResult → Bool
  | VResult.ok _ => false
  | _ => true

lemma mem_upemsItems {order : List String} {fm : String → FontDescriptor}
    {t : String} {v : ℕ} :
    (t, v) ∈ upemsItems order fm ↔ t ∈ order ∧ v = (fm t).unitsPerEm := by
  rw [upemsItems, List.mem_map]
  constructor
  · rintro ⟨s, hs, he⟩
    cases he
    exact ⟨mem_dedupFirst.mp hs, rfl⟩
  · rintro ⟨hm, rfl⟩
    exact ⟨t, mem_dedupFirst.mpr hm, rfl⟩

lemma dedup_length_le_one {l : List ℕ} :
    l.dedup.length ≤ 1 ↔ ∀ a ∈ l, ∀ b ∈ l, a = b := by
  constructor
  · intro h a ha b hb
    have ha' : a ∈ l.dedup := List.mem_dedup.mpr ha
    have hb' : b ∈ l.dedup := List.mem_dedup.mpr hb
    cases hl : l.dedup with
    | nil =>
      rw [hl] at ha'
      cases ha'
    | cons c cs =>
      have hcs : cs = [] := by
        rw [hl] at h
        simpa [List.length_eq_zero] using h
      rw [hl, hcs] at ha' hb'
      have h1 : a = c := by simpa using ha'
      have h2 : b = c := by simpa using hb'
      rw [h1, h2]
  · intro h
    by_contra hlen
    push_neg at hlen
    have hnd := l.nodup_dedup
    cases hl : l.dedup with
    | nil =>
      rw [hl] at hlen
      simp at hlen
    | cons c cs =>
      cases cs with
      | nil =>
        rw [hl] at hlen
        simp at hlen
      | cons d ds =>
        have hc : c ∈ l :=
          List.mem_dedup.mp (hl ▸ List.mem_cons_self c (d :: ds))
        have hd2 : d ∈ l :=
          List.mem_dedup.mp
            (hl ▸ List.mem_cons_of_mem c (List.mem_cons_self d ds))
        rw [hl] at hnd
        rcases List.nodup_cons.mp hnd with ⟨hnc, _⟩
        exact hnc (h c hc d hd2 ▸ List.mem_cons_self d ds)

/-- The units-per-em failure condition holds exactly when two fonts of the
order disagree on units-per-em. -/
lemma upem_cond_iff (order : List String) (fm : String → FontDescriptor) :
    1 < ((upemsItems order fm).map Prod.snd).dedup.length
      ↔ ∃ t1 ∈ order, ∃ t2 ∈ order,
          (fm t1).unitsPerEm ≠ (fm t2).unitsPerEm := by
  have hvals : ∀ v : ℕ, v ∈ (upemsItems order fm).map Prod.snd
      ↔ ∃ t ∈ order, (fm t).unitsPerEm = v := by
    intro v
    simp only [upemsItems, List.map_map, List.mem_map, Function.comp]
    constructor
    · rintro ⟨t, ht, rfl⟩
      exact ⟨t, mem_dedupFirst.mp ht, rfl⟩
    · rintro ⟨t, ht, rfl⟩
      exact ⟨t, mem_dedupFirst.mpr ht, rfl⟩
  constructor
  · intro h
    by_contra hno
    push_neg at hno
    have hle : ((upemsItems order fm).map Prod.snd).dedup.length ≤ 1 := by
      refine dedup_length_le_one.mpr ?_
      intro a ha b hb
      obtain ⟨t1, ht1, rfl⟩ := (hvals a).mp ha
      obtain ⟨t2, ht2, rfl⟩ := (hvals b).mp hb
      exact hno t1 ht1 t2 ht2
    omega
  · rintro ⟨t1, ht1, t2, ht2, hne⟩
    by_contra h
    push_neg at h
    exact hne (dedup_length_le_one.mp h _ ((hvals _).mpr ⟨t1, ht1, rfl⟩)
      _ ((hvals _).mpr ⟨t2, ht2, rfl⟩))

/-- Two fonts at units-per-em 1000 and 2048 (both glyf). -/
def fmUpem1000_2048 : String → FontDescriptor := fun t =>
  if t = "a" then ⟨1000, true, false, false⟩ else ⟨2048, true, false, false⟩

/-- Two fonts both at units-per-em 1000 (both glyf). -/
def fmUpem1000_1000 : String → FontDescriptor := fun _ =>
  ⟨1000, true, false, false⟩

/-- C4: `validate_fonts` fails with the units-per-em mismatch exactly when
more than one distinct units-per-em value appears over the resolved order,
and the mismatch error lists every tag of the order with its value; fonts
at 1000 and 2048 are rejected, two fonts at 1000 pass the check. -/
theorem validate_upem_spec (order : List String)
    (fm : String → FontDescriptor) :
    (isUpemFail (validate_fonts order fm) = true
      ↔ ∃ t1 ∈ order, ∃ t2 ∈ order,
          (fm t1).unitsPerEm ≠ (fm t2).unitsPerEm)
    ∧ (∀ items, validate_fonts order fm = VResult.upemMismatch items →
        ∀ t ∈ order, (t, (fm t).unitsPerEm) ∈ items)
    ∧ isUpemFail (validate_fonts ["a", "b"] fmUpem1000_2048) = true
    ∧ isUpemFail (validate_fonts ["a", "b"] fmUpem1000_1000) = false := by
  refine ⟨?_, ?_, by decide, by decide⟩
  · by_cases hc : 1 < ((upemsItems order fm).map Prod.snd).dedup.length
    · simp only [validate_fonts, if_pos hc, isUpemFail]
      exact ⟨fun _ => (upem_cond_iff order fm).mp hc, fun _ => trivial⟩
    · simp only [validate_fonts, if_neg hc]
      by_cases ho : "glyf" ∈ outlineKinds order fm
          ∧ "cff" ∈ outlineKinds order fm
      · simp only [if_pos ho, isUpemFail]
        constructor
        · intro h
          exact absurd h (by decide)
        · intro hex
          exact absurd ((upem_cond_iff order fm).mpr hex) hc
      · simp only [if_neg ho, isUpemFail]
        constructor
        · intro h
          exact absurd h (by decide)
        · intro hex
          exact absurd ((upem_cond_iff order fm).mpr hex) hc
  · intro items he
    by_cases hc : 1 < ((upemsItems order fm).map Prod.snd).dedup.length
    · simp only [validate_fonts, if_pos hc] at he
      cases he
      intro t ht
      exact mem_upemsItems.mpr ⟨ht, rfl⟩
    · simp only [validate_fonts, if_neg hc] at he
      split_ifs at he

/-- C4 witness: in the 1000 versus 2048 run the error items list tag a
with its value. -/
theorem validate_upem_spec_witness :
    ("a", (fmUpem1000_2048 ("a")).unitsPerEm)
      ∈ upemsItems ["a", "b"] fmUpem1000_2048 :=
  (validate_upem_spec ["a", "b"] fmUpem1000_2048).2.1
    (upemsItems ["a", "b"] fmUpem1000_2048) (by decide) ("a") (by decide)

/-- A glyf-only font at 1000 together with a cff-only font at 2048. -/
def fmGlyfCff : String → FontDescriptor := fun t =>
  if t = "a" then ⟨1000, true, false, false⟩ else ⟨2048, false, true, false⟩

/-- C5 counterexample: the observed outline kinds contain both glyf and
cff, yet the run does not fail with the outline-format mismatch (the
units-per-em check fires first), so failing with the outline mismatch is
not equivalent to the kinds containing both. -/
theorem validate_outline_claim_counterexample :
    ("glyf" ∈ outlineKinds ["a", "b"] fmGlyfCff
      ∧ "cff" ∈ outlineKinds ["a", "b"] fmGlyfCff)
    ∧ isOutlineFail (validate_fonts ["a", "b"] fmGlyfCff) = false := by
  decide

/-- C5 (amended): `validate_fonts` fails with the outline-format mismatch
exactly when the fonts share a single units-per-em value and the observed
outline kinds contain both glyf and cff; two cff fonts with a shared
units-per-em are accepted; variable-font flags never change whether
validation fails; and on success the warning flag is set iff some font of
the order has a variation-axis table. -/
theorem validate_outline_amended (order : List String)
    (fm : String → FontDescriptor) :
    (isOutlineFail (validate_fonts order fm) = true
      ↔ ((∀ t1 ∈ order, ∀ t2 ∈ order,
            (fm t1).unitsPerEm = (fm t2).unitsPerEm)
          ∧ "glyf" ∈ outlineKinds order fm
          ∧ "cff" ∈ outlineKinds order fm))
    ∧ ((∀ t ∈ order, (fm t).hasGlyf = false ∧ (fm t).hasCFF = true) →
        (∀ t1 ∈ order, ∀ t2 ∈ order,
          (fm t1).unitsPerEm = (fm t2).unitsPerEm) →
        validate_fonts order fm
          = VResult.ok (order.any (fun t => (fm t).hasFvar)))
    ∧ (∀ fm' : String → FontDescriptor,
        (∀ t : String, (fm' t).unitsPerEm = (fm t).unitsPerEm
          ∧ (fm' t).hasGlyf = (fm t).hasGlyf
          ∧ (fm' t).hasCFF = (fm t).hasCFF) →
        isValidateFail (validate_fonts order fm')
          = isValidateFail (validate_fonts order fm))
    ∧ (∀ b : Bool, validate_fonts order fm = VResult.ok b →
        (b = true ↔ ∃ t ∈ order, (fm t).hasFvar = true)) := by
  have huniform : ¬ (1 < ((upemsItems order fm).map Prod.snd).dedup.length)
      ↔ ∀ t1 ∈ order, ∀ t2 ∈ order,
          (fm t1).unitsPerEm = (fm t2).unitsPerEm := by
    rw [upem_cond_iff]
    push_neg
    rfl
  refine ⟨?_, ?_, ?_, ?_⟩
  · by_cases hc : 1 < ((upemsItems order fm).map Prod.snd).dedup.length
    · simp only [validate_fonts, if_pos hc, isOutlineFail]
      constructor
      · intro h
        exact absurd h (by decide)
      · rintro ⟨huni, -⟩
        exact absurd hc (huniform.mpr huni |> fun h => h)
    · have huni := huniform.mp hc
      simp only [validate_fonts, if_neg hc]
      by_cases ho : "glyf" ∈ outlineKinds order fm
          ∧ "cff" ∈ outlineKinds order fm
      · simp only [if_pos ho, isOutlineFail]
        exact ⟨fun _ => ⟨huni, ho⟩, fun _ => trivial⟩
      · simp only [if_neg ho, isOutlineFail]
        constructor
        · intro h
          exact absurd h (by decide)
        · rintro ⟨-, hg, hcf⟩
          exact absurd ⟨hg, hcf⟩ ho
  · intro hcff huni
    have hc : ¬ (1 < ((upemsItems order fm).map Prod.snd).dedup.length) :=
      huniform.mpr huni
    have ho : ¬ ("glyf" ∈ outlineKinds order fm
        ∧ "cff" ∈ outlineKinds order fm) := by
      rintro ⟨hg, -⟩
      rw [outlineKinds, List.mem_map] at hg
      obtain ⟨t, ht, hkind⟩ := hg
      obtain ⟨h1, h2⟩ := hcff t ht
      rw [outlineKind, h1, h2] at hkind
      simp at hkind
    simp only [validate_fonts, if_neg hc, if_neg ho]
  · intro fm' hagree
    have hupems : upemsItems order fm' = upemsItems order fm := by
      rw [upemsItems, upemsItems]
      refine List.map_congr_left ?_
      intro t _
      rw [(hagree t).1]
    have hkinds : outlineKinds order fm' = outlineKinds order fm := by
      rw [outlineKinds, outlineKinds]
      refine List.map_congr_left ?_
      intro t _
      rw [outlineKind, outlineKind, (hagree t).2.1, (hagree t).2.2]
    simp only [validate_fonts, hupems, hkinds]
    by_cases hc : 1 < ((upemsItems order fm).map Prod.snd).dedup.length
    · simp only [if_pos hc, isValidateFail]
    · simp only [if_neg hc]
      by_cases ho : "glyf" ∈ outlineKinds order fm
          ∧ "cff" ∈ outlineKinds order fm
      · simp only [if_pos ho, isValidateFail]
      · simp only [if_neg ho, isValidateFail]
  · intro b he
    simp only [validate_fonts] at he
    split_ifs at he
    rw [VResult.ok.injEq] at he
    subst he
    simp [List.any_eq_true]

/-- Two cff-only fonts sharing units-per-em 1000; the second is a
variable font. -/
def fmCffPair : String → FontDescriptor := fun t =>
  if t = "a" then ⟨1000, false, true, false⟩ else ⟨1000, false, true, true⟩

/-- C5 witness: the two-cff run is accepted, with the variable-font
warning set by the second font. -/
theorem validate_outline_amended_witness :
    validate_fonts ["a", "b"] fmCffPair
      = VResult.ok (["a", "b"].any (fun t => (fmCffPair t).hasFvar)) :=
  (validate_outline_amended ["a", "b"] fmCffPair).2.1 (by decide) (by decide)

/-- C9: a font carrying both glyf and cff tables is classified
"mixed-in-one" and contributes neither "glyf" nor "cff" to the observed
kinds, so an order of dual-format fonts plus fonts of one single other
kind (sharing a units-per-em value) passes validation. -/
theorem mixed_in_one_spec (order : List String)
    (fm : String → FontDescriptor) (k : String)
    (hupem : ∀ t1 ∈ order, ∀ t2 ∈ order,
      (fm t1).unitsPerEm = (fm t2).unitsPerEm)
    (hk : ∀ t ∈ order, ((fm t).hasGlyf = true ∧ (fm t).hasCFF = true)
        ∨ outlineKind (fm t) = k) :
    (∀ d : FontDescriptor, d.hasGlyf = true → d.hasCFF = true →
        outlineKind d = "mixed-in-one")
    ∧ ∃ b, validate_fonts order fm = VResult.ok b := by
  have hmix : ∀ d : FontDescriptor, d.hasGlyf = true → d.hasCFF = true →
      outlineKind d = "mixed-in-one" := by
    intro d h1 h2
    rw [outlineKind, h1, h2]
    rfl
  refine ⟨hmix, ?_⟩
  have hc : ¬ (1 < ((upemsItems order fm).map Prod.snd).dedup.length) := by
    rw [upem_cond_iff]
    push_neg
    exact hupem
  have hkind : ∀ s : String, s ∈ outlineKinds order fm →
      s = "mixed-in-one" ∨ s = k := by
    intro s hs
    rw [outlineKinds, List.mem_map] at hs
    obtain ⟨t, ht, rfl⟩ := hs
    rcases hk t ht with ⟨h1, h2⟩ | he
    · exact Or.inl (hmix _ h1 h2)
    · exact Or.inr he
  have ho : ¬ ("glyf" ∈ outlineKinds order fm
      ∧ "cff" ∈ outlineKinds order fm) := by
    rintro ⟨hg, hcf⟩
    rcases hkind _ hg with hg' | hg'
    · exact absurd hg' (by decide)
    · rcases hkind _ hcf with hc' | hc'
      · exact absurd hc' (by decide)
      · exact absurd (hg'.trans hc'.symm) (by decide)
  exact ⟨order.any (fun t => (fm t).hasFvar),
    by simp only [validate_fonts, if_neg hc, if_neg ho]⟩

/-- A dual-format font together with a glyf-only font, shared
units-per-em. -/
def fmMixedPlusGlyf : String → FontDescriptor := fun t =>
  if t = "a" then ⟨1000, true, true, false⟩ else ⟨1000, true, false, false⟩

/-- C9 witness: the dual-format plus glyf-only order passes validation. -/
theorem mixed_in_one_spec_witness :
    ∃ b, validate_fonts ["a", "b"] fmMixedPlusGlyf = VResult.ok b :=
  (mixed_in_one_spec ["a", "b"] fmMixedPlusGlyf ("glyf") (by decide)
    (by decide)).2

/-! Order filtering in `main`:

    order = [t for t in order if t in font_map and font_map[t]]
    if not order:
        raise SystemExit("No valid fonts in prefer order.")
    validate_fonts(order, font_map)
-/

/-- The known font map as a partial map from tag to path (`none` models a
tag absent from the dict).  A tag survives the filter iff it is a key and
its path is truthy, i.e. non-empty. -/
def filter_order (order : List String)
    (font_map : String → Option String) : List String :=
  order.filter (fun t =>
    match font_map t with
    | none => false
    | some p => decide (p ≠ ""))

/-- The stage of `main` from the order filter through `validate_fonts`:
each `raise SystemExit(msg)` becomes `Except.error msg`, and successful
validation hands the filtered order to the later stages.  The font
descriptors `fm` stand for the metadata `validate_fonts` would read from
the font files of the order. -/
def order_then_validate (order0 : List String)
    (font_map : String → Option String) (fm : String → FontDescriptor) :
    Except String (List String) :=
  let order := filter_order order0 font_map
  if order = [] then Except.error ("No valid fonts in prefer order.")
  else
    match validate_fonts order fm with
    | VResult.upemMismatch items => Except.error (renderUpemMsg items)
    | VResult.outlineMismatch =>
        Except.error ("Mixed TrueType (glyf) and CFF/CFF2 inputs. "
          ++ "Use all-TTF glyf fonts or all-CFF fonts.")
    | VResult.ok _ => Except.ok order

/-- C8: the filter keeps exactly the tags that are keys of the font map
with a non-empty path, and an empty filtered order fails with the fatal
configuration error whatever the font metadata is, i.e. before any
validation of fonts happens. -/
theorem order_filter_spec (order0 : List String)
    (font_map : String → Option String) :
    (∀ t : String, t ∈ filter_order order0 font_map
      ↔ t ∈ order0 ∧ ∃ p, font_map t = some p ∧ p ≠ "")
    ∧ (filter_order order0 font_map = [] →
        ∀ fm : String → FontDescriptor,
          order_then_validate order0 font_map fm
            = Except.error ("No valid fonts in prefer order.")) := by
  constructor
  · intro t
    rw [filter_order, List.mem_filter]
    constructor
    · rintro ⟨hm, hp⟩
      refine ⟨hm, ?_⟩
      cases hf : font_map t with
      | none =>
        rw [hf] at hp
        cases hp
      | some p =>
        rw [hf] at hp
        exact ⟨p, rfl, by simpa using hp⟩
    · rintro ⟨hm, p, hf, hp⟩
      refine ⟨hm, ?_⟩
      rw [hf]
      simpa using hp
  · intro hempty fm
    simp only [order_then_validate, hempty]
    rfl

/-- C8 witness: a one-tag order whose tag is not in the font map fails
with the configuration error, independently of any font metadata. -/
theorem order_filter_spec_witness :
    order_then_validate ["x"] (fun _ => none)
        (fun _ => FontDescriptor.mk 1000 true false false)
      = Except.error ("No valid fonts in prefer order.") :=
  (order_filter_spec ["x"] (fun _ => none)).2 (by decide)
    (fun _ => FontDescriptor.mk 1000 true false false)

/-! Renamer: `set_font_name(font_path, family_name, subfamily)`. -/

/-- One record of the font's name table: the identifying fields fontTools
exposes plus the stored string. -/
structure NameRecord where
  platformID : ℕ
  platEncID : ℕ
  langID : ℕ
  nameID : ℕ
  string : String
deriving DecidableEq, Repr

/-- Python
`full_name = f"{family_name} {subfamily}" if subfamily != "Regular" else family_name`. -/
def full_name (family subfamily : String) : String :=
  if subfamily ≠ "Regular" then family ++ " " ++ subfamily else family

/-- Python `full_name.replace(" ", "")`: replacing the one-character
pattern " " by the empty string deletes exactly the space characters. -/
def removeSpaces (s : String) : String :=
  String.mk (s.data.filter (fun c => c ≠ ' '))

/-- Python `ps_name = full_name.replace(" ", "")`. -/
def ps_name (family subfamily : String) : String :=
  removeSpaces (full_name family subfamily)

/-- The `name_records` dict: the replacement string for the four updated
name identifiers (1 Family, 2 Subfamily, 4 Full Name, 6 PostScript Name),
`none` for every other identifier. -/
def name_value (family subfamily : String) (nameID : ℕ) : Option String :=
  if nameID = 1 then some family
  else if nameID = 2 then some subfamily
  else if nameID = 4 then some (full_name family subfamily)
  else if nameID = 6 then some (ps_name family subfamily)
  else none

/-- The update loop of `set_font_name` over the name table: records whose
`nameID` is in the dict get the new string, all others are untouched, and
no record is created or removed. -/
def set_font_name (records : List NameRecord)
    (family subfamily : String) : List NameRecord :=
  records.map (fun r =>
    match name_value family subfamily r.nameID with
    | some s => { r with string := s }
    | none => r)

/-- C10: the Full Name is the family alone for subfamily "Regular" and
family-space-subfamily otherwise; the PostScript name is the Full Name
with every space removed and no other character changed; and the renamer
rewrites exactly the existing records with nameIDs 1, 2, 4, 6 (to the
family, subfamily, Full Name and PostScript name respectively), keeping
their other fields, leaving every other record unchanged and creating no
record. -/
theorem set_font_name_spec (records : List NameRecord)
    (family subfamily : String) :
    (subfamily = "Regular" → full_name family subfamily = family)
    ∧ (subfamily ≠ "Regular" →
        full_name family subfamily = family ++ " " ++ subfamily)
    ∧ (∀ c ∈ (ps_name family subfamily).data, c ≠ ' ')
    ∧ (∀ c : Char, c ≠ ' ' →
        (ps_name family subfamily).data.count c
          = (full_name family subfamily).data.count c)
    ∧ (set_font_name records family subfamily).length = records.length
    ∧ (∀ (i : ℕ) (r : NameRecord), records[i]? = some r →
        (r.nameID ≠ 1 → r.nameID ≠ 2 → r.nameID ≠ 4 → r.nameID ≠ 6 →
          (set_font_name records family subfamily)[i]? = some r)
        ∧ (r.nameID = 1 →
            (set_font_name records family subfamily)[i]?
              = some { r with string := family })
        ∧ (r.nameID = 2 →
            (set_font_name records family subfamily)[i]?
              = some { r with string := subfamily })
        ∧ (r.nameID = 4 →
            (set_font_name records family subfamily)[i]?
              = some { r with string := full_name family subfamily })
        ∧ (r.nameID = 6 →
            (set_font_name records family subfamily)[i]?
              = some { r with string := ps_name family subfamily })) := by
  refine ⟨?_, ?_, ?_, ?_, ?_, ?_⟩
  · intro h
    rw [full_name, if_neg (by simp [h])]
  · intro h
    rw [full_name, if_pos h]
  · intro c hc
    rw [ps_name, removeSpaces] at hc
    exact of_decide_eq_true (List.mem_filter.mp hc).2
  · intro c hc
    rw [ps_name, removeSpaces]
    exact List.count_filter (by simpa using hc)
  · rw [set_font_name, List.length_map]
  · intro i r hr
    have hmap : (set_font_name records family subfamily)[i]?
        = some (match name_value family subfamily r.nameID with
          | some s => { r with string := s }
          | none => r) := by
      rw [set_font_name, List.getElem?_map, hr, Option.map_some']
    refine ⟨?_, ?_, ?_, ?_, ?_⟩
    · intro h1 h2 h4 h6
      have hv : name_value family subfamily r.nameID = none := by
        rw [name_value, if_neg h1, if_neg h2, if_neg h4, if_neg h6]
      rw [hmap, hv]
    · intro h1
      have hv : name_value family subfamily r.nameID = some family := by
        rw [name_value, if_pos h1]
      rw [hmap, hv]
    · intro h2
      have hv : name_value family subfamily r.nameID = some subfamily := by
        rw [name_value]
        rw [if_neg (by omega), if_pos h2]
      rw [hmap, hv]
    · intro h4
      have hv : name_value family subfamily r.nameID
          = some (full_name family subfamily) := by
        rw [name_value]
        rw [if_neg (by omega), if_neg (by omega), if_pos h4]
      rw [hmap, hv]
    · intro h6
      have hv : name_value family subfamily r.nameID
          = some (ps_name family subfamily) := by
        rw [name_value]
        rw [if_neg (by omega), if_neg (by omega), if_neg (by omega),
          if_pos h6]
      rw [hmap, hv]

/-- Concrete name table: a Family record, a Full Name record, and a
copyright record (nameID 0) that the renamer must not touch. -/
def exRecords : List NameRecord :=
  [⟨3, 1, 0x409, 1, "Old"⟩, ⟨3, 1, 0x409, 4, "Old Full"⟩,
    ⟨3, 1, 0x409, 0, "Copyright"⟩]

/-- C10 witness: the Full Name record of the concrete table is rewritten
to the derived full name. -/
theorem set_font_name_spec_witness :
    (set_font_name exRecords ("Noto Serif CJK") ("Light"))[1]?
      = some ⟨3, 1, 0x409, 4, full_name ("Noto Serif CJK") ("Light")⟩ :=
  ((set_font_name_spec exRecords ("Noto Serif CJK") ("Light")).2.2.2.2.2 1
    ⟨3, 1, 0x409, 4, "Old Full"⟩ (by decide)).2.2.2.1 (by decide)

end MergeCJK
